import Mathlib

/-!
Verification of the keyword-dialog core of the cae repository.

The code under verification is src/gui/dialog.py: the widget tree built for a
keyword (Group, ArgumentWidget, Box, Or, Combo, Line, Bool, ...), the text
generator change() that rebuilds the INP code shown in the text edit, the
required-field check KeywordDialog.accept(), and the line extraction
KeywordDialog.ok().  Text is modelled as a list of characters; session state
(current values, checked and enabled flags, radio selection) is stored in the
tree nodes, mirroring the state the Qt widgets hold at run time.  Qt semantics
used by the code and reflected in the model: a child widget of a disabled
widget reports isEnabled() = False, and an unchecked checkable QGroupBox
disables all of its children; the traversal therefore threads a context flag
ctx that is the conjunction of all ancestor enabled states.
-/

/-- Text is modelled as a list of characters. -/
abbrev Str := List Char

/-- Shorthand for turning a string literal into the character-list model. -/
def str (s : String) : Str := s.data

/-- Test for the Python expression text.startswith(str1) with str1 the
two-character separator of a comma and a space, as used by change() in
dialog.py line 411. -/
def sws (l : Str) : Bool :=
  match l with
  | c1 :: c2 :: _ => c1 == ',' && c2 == ' '
  | _ => false

/-- Test for the Python expression text.endswith(backslash n), as used by
change() in dialog.py line 411. -/
def endsNL (l : Str) : Bool := l.getLast? == some '\n'

/-- The prefix checked by ArgumentWidget.text (dialog.py line 154): a value
starting with this marker is the placeholder Combo.__init__ inserts when the
cross-referenced keyword has no implementations yet (dialog.py line 260). -/
def phP : Str := ['!', '!', '!', ' ', 'C', 'r', 'e', 'a', 't', 'e', ' ', '*']

/-- The separator chosen by ArgumentWidget.text (dialog.py lines 144-146):
a comma and a space, or a line break when the argument has newline=True. -/
def sepOf (newline : Bool) : Str := if newline then ['\n'] else [',', ' ']

/-- The payload of ArgumentWidget.text (dialog.py lines 147-160) after the
enabled checks: an empty current value, or a value carrying the
cross-reference placeholder, yields nothing; otherwise the separator is
followed by NAME=VALUE, or by the bare value when the argument has no name. -/
def leafText (name value : Str) (newline : Bool) : Str :=
  if value.isEmpty || phP.isPrefixOf value then []
  else sepOf newline ++ (if name.isEmpty then value else name ++ '=' :: value)

/-- One append step of change() (dialog.py lines 409-413): the new piece is
appended to the text edit content, except that a leading comma-space is cut
when the current content ends with a line break. -/
def appendT (buf t : Str) : Str :=
  buf ++ (if endsNL buf && sws t then t.drop 2 else t)

/-- The widget tree of one keyword dialog together with its session state.
leaf covers the ArgumentWidget family holding one scalar slot (Combo, Line,
Int, Float, Text), with the current text of the inner widget and the Qt
enabled flag of that inner widget; boolArg is the Bool checkbox widget;
group is the checkable Group box (dialog.py class Group); box is the plain
Box container; orGroup is the Or container with radio buttons, selected
being the index of the checked radio button. -/
inductive Arg where
  | leaf (name value : Str) (required newline enabled : Bool)
  | boolArg (name : Str) (required checked enabled : Bool)
  | group (name : Str) (checked : Bool) (children : List Arg)
  | box (newline : Bool) (children : List Arg)
  | orGroup (newline : Bool) (selected : Nat) (children : List Arg)

/-- The text of the container widgets Box and Or (GroupWidget.text,
dialog.py lines 177-178): a line break when newline is set, else nothing. -/
def boxSep (newline : Bool) : Str := if newline then ['\n'] else []

/-- The text() result of a leaf-like widget as consulted by change() and by
KeywordDialog.accept(); ctx is the conjunction of the ancestor enabled
states (Qt propagates disabling to children).  For a leaf this is
ArgumentWidget.text (dialog.py lines 139-160): both the inner widget and the
surrounding widget must be enabled.  For a checkbox this is Bool.text
(dialog.py lines 344-348): enabled and checked gives a comma-space followed
by the label text, which is the argument name. -/
def wtext (ctx : Bool) : Arg → Str
  | .leaf n v _ nl e => if ctx && e then leafText n v nl else []
  | .boolArg n _ chk e => if ctx && e && chk then ',' :: ' ' :: n else []
  | _ => []

mutual

/-- One iteration of the loop in change() (dialog.py lines 404-418) for a
single argument: append the widget text (empty when the widget is disabled),
then recurse into the child arguments.  For the checkable Group the text is
Group.text (dialog.py lines 64-68), a comma-space and the group name when
the box is enabled and checked, and the children are walked with the
context restricted by the checked state, since an unchecked checkable
QGroupBox disables its children.  For Box and Or the text is GroupWidget.text
and the children keep the context; in an Or container the child at the
selected radio index is enabled and every other child is disabled
(dialog.py lines 216-224). -/
def emitArg (ctx : Bool) : Arg → Str → Str
  | .leaf n v r nl e, buf => appendT buf (wtext ctx (.leaf n v r nl e))
  | .boolArg n r chk e, buf => appendT buf (wtext ctx (.boolArg n r chk e))
  | .group n chk cs, buf =>
      emitList (ctx && chk) cs (appendT buf (if ctx && chk then ',' :: ' ' :: n else []))
  | .box nl cs, buf => emitList ctx cs (appendT buf (if ctx then boxSep nl else []))
  | .orGroup nl sel cs, buf =>
      emitOr ctx sel 0 cs (appendT buf (if ctx then boxSep nl else []))

/-- The loop of change() over a sibling list, left to right. -/
def emitList (ctx : Bool) : List Arg → Str → Str
  | [], buf => buf
  | a :: rest, buf => emitList ctx rest (emitArg ctx a buf)

/-- The loop of change() over the children of an Or container: child i is
walked with the context restricted to the radio selection. -/
def emitOr (ctx : Bool) (sel i : Nat) : List Arg → Str → Str
  | [], buf => buf
  | a :: rest, buf => emitOr ctx sel (i + 1) rest (emitArg (ctx && (i == sel)) a buf)

end

/-- The item a KeywordDialog is opened for: either an existing implementation
(raw INP lines) or a keyword with its argument tree. -/
inductive Item where
  | implementation (inpCode : List Str)
  | keyword (name : Str) (args : List Arg)

/-- QTextEdit.setText: the previous content is discarded entirely. -/
def qtextSetText (_current new : Str) : Str := new

/-- The full regeneration change(None) (dialog.py lines 392-418): for an
implementation item the text edit is cleared; for a keyword item the text
edit is reset to the keyword name and every argument is appended in document
order.  The first parameter is the text edit content before the call; the
code overwrites it via TEXTEDIT.setText(ITEM.name). -/
def dialogChange (old : Str) : Item → Str
  | .implementation _ => []
  | .keyword n args => emitList true args (qtextSetText old n)

/-- The character class stripped by the Python str.strip() call in
KeywordDialog.ok (dialog.py line 512) for the characters that can occur
here. -/
def isSpaceCh (c : Char) : Bool :=
  c == ' ' || c == '\t' || c == '\n' || c == '\r' || c == '\x0b' || c == '\x0c'

/-- Python str.strip(): whitespace removed from both ends. -/
def pyStrip (l : Str) : Str :=
  ((l.dropWhile isSpaceCh).reverse.dropWhile isSpaceCh).reverse

/-- KeywordDialog.ok (dialog.py lines 509-512): the text edit content is
stripped and split on line breaks, giving the generated INP lines. -/
def okOutput (old : Str) (it : Item) : List Str :=
  (pyStrip (dialogChange old it)).splitOn '\n'

/-- The static grammar shape of a keyword argument tree, without session
state: what model/kom.py delivers through get_arguments() before any widget
is built.  A leaf carries its initial value (argument.value, set into the
line edit by Line.__init__, dialog.py line 308). -/
inductive GArg where
  | gleaf (name value : Str) (required newline : Bool)
  | gbool (name : Str) (required : Bool)
  | ggroup (name : Str) (children : List GArg)
  | gbox (newline : Bool) (children : List GArg)
  | gor (newline : Bool) (children : List GArg)

mutual

/-- The session state right after the dialog widgets are built: every widget
starts enabled, a checkable Group starts unchecked (dialog.py line 53,
setChecked(False) unconditionally), a Bool checkbox starts checked exactly
when the argument is required (dialog.py lines 341-342), and an Or container
starts with radio index 0 checked (dialog.py line 222). -/
def argInit : GArg → Arg
  | .gleaf n v r nl => .leaf n v r nl true
  | .gbool n r => .boolArg n r r true
  | .ggroup n cs => .group n false (argInitList cs)
  | .gbox nl cs => .box nl (argInitList cs)
  | .gor nl cs => .orGroup nl 0 (argInitList cs)

/-- Pointwise initialisation of a sibling list. -/
def argInitList : List GArg → List Arg
  | [] => []
  | g :: rest => argInit g :: argInitList rest

end

mutual

/-- Collects whether every checkable Group in a session tree is unchecked. -/
def groupsUnchecked : Arg → Bool
  | .leaf .. => true
  | .boolArg .. => true
  | .group _ chk cs => !chk && groupsUncheckedList cs
  | .box _ cs => groupsUncheckedList cs
  | .orGroup _ _ cs => groupsUncheckedList cs

/-- List version of groupsUnchecked. -/
def groupsUncheckedList : List Arg → Bool
  | [] => true
  | a :: rest => groupsUnchecked a && groupsUncheckedList rest

end

mutual

/-- Collects whether every Or container in a session tree has radio index 0
selected. -/
def orsAtZero : Arg → Bool
  | .leaf .. => true
  | .boolArg .. => true
  | .group _ _ cs => orsAtZeroList cs
  | .box _ cs => orsAtZeroList cs
  | .orGroup _ sel cs => sel == 0 && orsAtZeroList cs

/-- List version of orsAtZero. -/
def orsAtZeroList : List Arg → Bool
  | [] => true
  | a :: rest => orsAtZero a && orsAtZeroList rest

end

mutual

/-- Whether a grammar subtree contains a required leaf or a required
checkbox argument at any depth. -/
def hasRequiredLeafG : GArg → Bool
  | .gleaf _ _ r _ => r
  | .gbool _ r => r
  | .ggroup _ cs => hasRequiredLeafGList cs
  | .gbox _ cs => hasRequiredLeafGList cs
  | .gor _ cs => hasRequiredLeafGList cs

/-- List version of hasRequiredLeafG. -/
def hasRequiredLeafGList : List GArg → Bool
  | [] => true && false
  | g :: rest => hasRequiredLeafG g || hasRequiredLeafGList rest

end

/-- The checked flag of a session node when it is a checkable Group. -/
def topGroupChecked : Arg → Option Bool
  | .group _ chk _ => some chk
  | _ => none

/-- The selected radio index of a session node when it is an Or container. -/
def orSelected : Arg → Option Nat
  | .orGroup _ sel _ => some sel
  | _ => none

/-- The number of active children of an Or container: in the dialog, child i
is active exactly when radio button i is checked, and the radio buttons all
share the Or widget as parent, so Qt keeps them mutually exclusive; the
session model stores the checked index in selected.  Counts the child
indices equal to the selected index. -/
def orActiveCount : Arg → Nat
  | .orGroup _ sel cs => ((List.range cs.length).filter (fun i => i == sel)).length
  | _ => 0

/-- Clicking radio button j of an Or container (dialog.py lines 216-225):
the radio buttons are mutually exclusive, so button j becomes the checked
one; a click can only hit one of the existing buttons, so an index beyond
the child list leaves the state unchanged. -/
def orToggle (j : Nat) : Arg → Arg
  | .orGroup nl sel cs => if j < cs.length then .orGroup nl j cs else .orGroup nl sel cs
  | a => a

mutual

/-- KeywordDialog.accept (dialog.py lines 484-507) as a predicate: the
dialog is accepted when the walk finds no required argument widget whose
text() is empty.  The walk visits every argument, visible or not: the code
recurses through a.get_arguments() unconditionally and only widgets carrying
the required attribute (the ArgumentWidget family, including Bool) are
checked, through their text() value. -/
def acceptArg (ctx : Bool) : Arg → Bool
  | .leaf n v r nl e => !r || !(wtext ctx (.leaf n v r nl e)).isEmpty
  | .boolArg n r chk e => !r || !(wtext ctx (.boolArg n r chk e)).isEmpty
  | .group _ chk cs => acceptList (ctx && chk) cs
  | .box _ cs => acceptList ctx cs
  | .orGroup _ sel cs => acceptOr ctx sel 0 cs

/-- The loop of accept over a sibling list. -/
def acceptList (ctx : Bool) : List Arg → Bool
  | [] => true
  | a :: rest => acceptArg ctx a && acceptList ctx rest

/-- The loop of accept over the children of an Or container. -/
def acceptOr (ctx : Bool) (sel i : Nat) : List Arg → Bool
  | [] => true
  | a :: rest => acceptArg (ctx && (i == sel)) a && acceptOr ctx sel (i + 1) rest

end

mutual

/-- The effective text() values of all required argument widgets in document
order, with the same context threading as accept; accept succeeds exactly
when none of these is empty. -/
def reqTextsArg (ctx : Bool) : Arg → List Str
  | .leaf n v r nl e => if r then [wtext ctx (.leaf n v r nl e)] else []
  | .boolArg n r chk e => if r then [wtext ctx (.boolArg n r chk e)] else []
  | .group _ chk cs => reqTextsList (ctx && chk) cs
  | .box _ cs => reqTextsList ctx cs
  | .orGroup _ sel cs => reqTextsOr ctx sel 0 cs

/-- List version of reqTextsArg. -/
def reqTextsList (ctx : Bool) : List Arg → List Str
  | [] => []
  | a :: rest => reqTextsArg ctx a ++ reqTextsList ctx rest

/-- Or version of reqTextsArg. -/
def reqTextsOr (ctx : Bool) (sel i : Nat) : List Arg → List Str
  | [] => []
  | a :: rest => reqTextsArg (ctx && (i == sel)) a ++ reqTextsOr ctx sel (i + 1) rest

end

mutual

/-- Stated from the wording of the specification, for comparison with the
code: validation succeeds when every visible required leaf (visible meaning
every ancestor group is enabled respectively selected) has a non-empty
value, and invisible leaves are never reported.  This is the comparandum for
the validation-completeness claim, not a transcription of the code. -/
def specVisibleOk (ctx : Bool) : Arg → Bool
  | .leaf _ v r _ _ => !(ctx && r) || !v.isEmpty
  | .boolArg _ r chk _ => !(ctx && r) || chk
  | .group _ chk cs => specVisibleOkList (ctx && chk) cs
  | .box _ cs => specVisibleOkList ctx cs
  | .orGroup _ sel cs => specVisibleOkOr ctx sel 0 cs

/-- List version of specVisibleOk. -/
def specVisibleOkList (ctx : Bool) : List Arg → Bool
  | [] => true
  | a :: rest => specVisibleOk ctx a && specVisibleOkList ctx rest

/-- Or version of specVisibleOk. -/
def specVisibleOkOr (ctx : Bool) (sel i : Nat) : List Arg → Bool
  | [] => true
  | a :: rest => specVisibleOk (ctx && (i == sel)) a && specVisibleOkOr ctx sel (i + 1) rest

end

/-- One keyword implementation as registered in the keyword tree: the
keyword it implements and its name. -/
structure Impl where
  keyword : Str
  iname : Str

/-- Modelled from the spec: KWT.get_implementations lives in model/kom.py,
which is not part of the sources at hand; per the specification the
implementation index is a mapping from keyword name to the ordered list of
implementations created so far, insertion order preserved, and an empty
result is not an error.  The index is modelled as the insertion-ordered list
of all registered implementations; the lookup keeps the registrations of the
requested keyword in order. -/
def getImplementations (index : List Impl) (kw : Str) : List Impl :=
  index.filter (fun im => im.keyword == kw)

/-- The red placeholder item Combo.__init__ adds when the cross-referenced
keyword has no implementation yet (dialog.py line 260). -/
def placeholderItem (use : Str) : Str := str "!!! Create " ++ use ++ str " first !!!"

/-- The items of the combo box built by Combo.__init__ (dialog.py lines
248-263) for an argument with the given cross-reference (argument.use) and
fixed value list (argument.value, a bar-separated string): for a
cross-reference, first an empty item, then the names of the registered
implementations, or the red placeholder item when there are none; then the
fixed values, when any. -/
def comboItems (index : List Impl) (use : Option Str) (value : Str) : List Str :=
  (match use with
   | some kw =>
       let impls := (getImplementations index kw).map (fun im => im.iname)
       if impls.isEmpty then [[], placeholderItem kw] else [] :: impls
   | none => [])
  ++ (if value.isEmpty then [] else value.splitOn '|')

/-- The candidate values a combo box offers: its items without the blank
default row and without the red placeholder row.  The blank row and the
placeholder row are exactly the items whose selection makes
ArgumentWidget.text contribute nothing (dialog.py line 154), so they are
presentation artifacts, not values. -/
def comboCandidates (items : List Str) : List Str :=
  items.filter (fun s => !s.isEmpty && !phP.isPrefixOf s)

mutual

/-- Replaces, in every leaf, a current value that carries the
cross-reference placeholder marker by the empty value. -/
def scrubArg : Arg → Arg
  | .leaf n v r nl e => .leaf n (if phP.isPrefixOf v then [] else v) r nl e
  | .boolArg n r chk e => .boolArg n r chk e
  | .group n chk cs => .group n chk (scrubList cs)
  | .box nl cs => .box nl (scrubList cs)
  | .orGroup nl sel cs => .orGroup nl sel (scrubList cs)

/-- List version of scrubArg. -/
def scrubList : List Arg → List Arg
  | [] => []
  | a :: rest => scrubArg a :: scrubList rest

end

mutual

/-- Sessions in which the exclamation mark occurs only in placeholder
values: every argument name is free of the exclamation mark, and every leaf
value either carries the placeholder marker as its head or is free of the
exclamation mark.  Values chosen from a cross-reference combo are of this
shape: the selectable rows are implementation names, the blank row, or the
full placeholder item. -/
def bangFreeArg : Arg → Bool
  | .leaf n v _ _ _ => !n.contains '!' && (phP.isPrefixOf v || !v.contains '!')
  | .boolArg n _ _ _ => !n.contains '!'
  | .group n _ cs => !n.contains '!' && bangFreeList cs
  | .box _ cs => bangFreeList cs
  | .orGroup _ _ cs => bangFreeList cs

/-- List version of bangFreeArg. -/
def bangFreeList : List Arg → Bool
  | [] => true
  | a :: rest => bangFreeArg a && bangFreeList rest

end

/-- Well-formedness of a keyword name for the separator analysis: non-empty,
free of line breaks and not itself starting with the comma-space
separator. -/
def kwOk (kw : Str) : Bool := !kw.isEmpty && !kw.contains '\n' && !sws kw

mutual

/-- Well-formedness of the session values and names for the separator
analysis: names and values are free of line breaks, names do not start with
a comma, and the value of a nameless leaf does not start with the
comma-space separator. -/
def sepOkArg : Arg → Bool
  | .leaf n v _ _ _ =>
      !n.contains '\n' && !v.contains '\n' && (n.head? != some ',')
        && (!n.isEmpty || !sws v)
  | .boolArg n _ _ _ => !n.contains '\n' && (n.head? != some ',')
  | .group n _ cs => !n.contains '\n' && (n.head? != some ',') && sepOkList cs
  | .box _ cs => sepOkList cs
  | .orGroup _ _ cs => sepOkList cs

/-- List version of sepOkArg. -/
def sepOkList : List Arg → Bool
  | [] => true
  | a :: rest => sepOkArg a && sepOkList rest

end

/-- The state of the line scanner used to express that no line of the
generated text starts with the comma-space separator: atStart right after a
line break (or at the very beginning), atComma when the current line so far
is exactly one comma, inLine otherwise. -/
inductive ScanSt where
  | atStart
  | atComma
  | inLine
deriving DecidableEq

/-- One step of the line scanner; none flags a line that starts with a comma
followed by a space. -/
def scanStep : ScanSt → Char → Option ScanSt
  | .atStart, c =>
      if c = ',' then some .atComma
      else if c = '\n' then some .atStart
      else some .inLine
  | .atComma, c =>
      if c = ' ' then none
      else if c = '\n' then some .atStart
      else some .inLine
  | .inLine, c =>
      if c = '\n' then some .atStart
      else some .inLine

/-- Runs the line scanner; the result is some state exactly when no line of
the text starts with the comma-space separator. -/
def scanRun (s : ScanSt) : Str → Option ScanSt
  | [] => some s
  | c :: rest =>
      match scanStep s c with
      | none => none
      | some s2 => scanRun s2 rest

/-- Structural induction over the argument tree with a membership induction
hypothesis for the child lists. -/
theorem argStrongInd {P : Arg → Prop}
    (hleaf : ∀ n v r nl e, P (.leaf n v r nl e))
    (hbool : ∀ n r c e, P (.boolArg n r c e))
    (hgroup : ∀ n c cs, (∀ a ∈ cs, P a) → P (.group n c cs))
    (hbox : ∀ nl cs, (∀ a ∈ cs, P a) → P (.box nl cs))
    (hor : ∀ nl s cs, (∀ a ∈ cs, P a) → P (.orGroup nl s cs)) :
    ∀ a, P a
  | .leaf n v r nl e => hleaf n v r nl e
  | .boolArg n r c e => hbool n r c e
  | .group n c cs => hgroup n c cs (fun a _ => argStrongInd hleaf hbool hgroup hbox hor a)
  | .box nl cs => hbox nl cs (fun a _ => argStrongInd hleaf hbool hgroup hbox hor a)
  | .orGroup nl s cs => hor nl s cs (fun a _ => argStrongInd hleaf hbool hgroup hbox hor a)

/-- Structural induction over the grammar tree with a membership induction
hypothesis for the child lists. -/
theorem gargStrongInd {P : GArg → Prop}
    (hleaf : ∀ n v r nl, P (.gleaf n v r nl))
    (hbool : ∀ n r, P (.gbool n r))
    (hgroup : ∀ n cs, (∀ g ∈ cs, P g) → P (.ggroup n cs))
    (hbox : ∀ nl cs, (∀ g ∈ cs, P g) → P (.gbox nl cs))
    (hor : ∀ nl cs, (∀ g ∈ cs, P g) → P (.gor nl cs)) :
    ∀ g, P g
  | .gleaf n v r nl => hleaf n v r nl
  | .gbool n r => hbool n r
  | .ggroup n cs => hgroup n cs (fun g _ => gargStrongInd hleaf hbool hgroup hbox hor g)
  | .gbox nl cs => hbox nl cs (fun g _ => gargStrongInd hleaf hbool hgroup hbox hor g)
  | .gor nl cs => hor nl cs (fun g _ => gargStrongInd hleaf hbool hgroup hbox hor g)

/-- Appending the empty piece leaves the buffer unchanged. -/
theorem appendT_nil (buf : Str) : appendT buf [] = buf := by
  simp [appendT, sws]

/-- A sibling walk in which every argument leaves the buffer unchanged
leaves the buffer unchanged. -/
theorem emitList_id (ctx : Bool) (cs : List Arg)
    (h : ∀ a ∈ cs, ∀ buf, emitArg ctx a buf = buf) :
    ∀ buf, emitList ctx cs buf = buf := by
  induction cs with
  | nil => intro buf; simp [emitList]
  | cons a rest ih =>
    intro buf
    rw [emitList, h a (by simp)]
    exact ih (fun x hx buf => h x (by simp [hx]) buf) buf

/-- An Or walk under a false context leaves the buffer unchanged, provided
every child does so under a false context. -/
theorem emitOr_false (cs : List Arg)
    (h : ∀ a ∈ cs, ∀ buf, emitArg false a buf = buf) :
    ∀ sel i buf, emitOr false sel i cs buf = buf := by
  induction cs with
  | nil => intro sel i buf; simp [emitOr]
  | cons a rest ih =>
    intro sel i buf
    rw [emitOr, Bool.false_and, h a (by simp)]
    exact ih (fun x hx buf => h x (by simp [hx]) buf) sel (i + 1) buf

/-- A widget in a disabled context contributes nothing, whatever it is:
its own text is suppressed and all of its descendants are disabled too. -/
theorem emit_ctx_false : ∀ a : Arg, ∀ buf, emitArg false a buf = buf := by
  intro a
  induction a using argStrongInd with
  | hleaf n v r nl e => intro buf; simp [emitArg, wtext, appendT_nil]
  | hbool n r c e => intro buf; simp [emitArg, wtext, appendT_nil]
  | hgroup n c cs ih =>
    intro buf
    rw [emitArg]
    simp only [Bool.false_and, Bool.false_eq_true, if_false, appendT_nil]
    exact emitList_id false cs ih buf
  | hbox nl cs ih =>
    intro buf
    rw [emitArg]
    simp only [Bool.false_eq_true, if_false, appendT_nil]
    exact emitList_id false cs ih buf
  | hor nl s cs ih =>
    intro buf
    rw [emitArg]
    simp only [Bool.false_eq_true, if_false, appendT_nil]
    exact emitOr_false cs ih s 0 buf

/-- The sibling walk distributes over list concatenation. -/
theorem emitList_append (ctx : Bool) (xs ys : List Arg) :
    ∀ buf, emitList ctx (xs ++ ys) buf = emitList ctx ys (emitList ctx xs buf) := by
  induction xs with
  | nil => intro buf; simp [emitList]
  | cons a rest ih => intro buf; rw [List.cons_append, emitList, emitList, ih]

/-- The example grammar of the separator-correctness property, in the
session state of that property: NAME required and filled with C1, TYPE
optional and set to DISTRIBUTING, PENALTY a newline argument that is
disabled. -/
def constraintArgs : List Arg :=
  [.leaf (str "NAME") (str "C1") true false true,
   .leaf (str "TYPE") (str "DISTRIBUTING") false false true,
   .leaf (str "PENALTY") [] false true false]

/-- The CONSTRAINT keyword item of the separator-correctness example. -/
def constraintItem : Item := .keyword (str "*CONSTRAINT") constraintArgs

/-- C1: for the example grammar of keyword CONSTRAINT with leaves NAME
(required), TYPE (optional) and PENALTY (newline), in the session where NAME
is C1, TYPE is DISTRIBUTING and PENALTY is disabled, generation produces
exactly the single line with the keyword name first and the values joined by
comma-space in NAME=VALUE form; the disabled leaf contributes nothing, and
there is no trailing separator and no stray line break. -/
theorem c1_separator_correctness :
    ∀ old : Str,
      okOutput old constraintItem = [str "*CONSTRAINT, NAME=C1, TYPE=DISTRIBUTING"] := by
  intro old
  rfl

/-- C2: a leaf whose current value is empty, or whose widget is disabled,
contributes nothing at all to the generated text: walking it leaves the
buffer untouched, and removing it from any sibling list leaves the generated
text unchanged, so it produces neither its name nor an empty slot nor a
separator. -/
theorem c2_empty_or_disabled_leaf_silent :
    ∀ (ctx : Bool) (n v : Str) (r nl e : Bool) (xs ys : List Arg) (buf : Str),
      emitArg ctx (.leaf n [] r nl e) buf = buf ∧
      emitArg ctx (.leaf n v r nl false) buf = buf ∧
      emitList ctx (xs ++ .leaf n [] r nl e :: ys) buf = emitList ctx (xs ++ ys) buf ∧
      emitList ctx (xs ++ .leaf n v r nl false :: ys) buf = emitList ctx (xs ++ ys) buf := by
  have hempty : ∀ (ctx : Bool) (n : Str) (r nl e : Bool) (buf : Str),
      emitArg ctx (.leaf n [] r nl e) buf = buf := by
    intro ctx n r nl e buf
    simp [emitArg, wtext, leafText, appendT_nil]
  have hdis : ∀ (ctx : Bool) (n v : Str) (r nl : Bool) (buf : Str),
      emitArg ctx (.leaf n v r nl false) buf = buf := by
    intro ctx n v r nl buf
    simp [emitArg, wtext, appendT_nil]
  intro ctx n v r nl e xs ys buf
  refine ⟨hempty ctx n r nl e buf, hdis ctx n v r nl buf, ?_, ?_⟩
  · rw [emitList_append, emitList_append, emitList, hempty]
  · rw [emitList_append, emitList_append, emitList, hdis]

/-- C4: a disabled sequential group gates its whole subtree: walking an
unchecked Group leaves the buffer untouched whatever its children are, so a
leaf nested at any depth inside it contributes nothing, regardless of the
value, enabled flag or required flag of that leaf; likewise any widget under
a disabled ancestor contributes nothing. -/
theorem c4_disabled_group_gates_subtree :
    ∀ (ctx : Bool) (n : Str) (cs : List Arg) (a : Arg) (buf : Str),
      emitArg ctx (.group n false cs) buf = buf ∧
      emitArg false a buf = buf := by
  intro ctx n cs a buf
  constructor
  · rw [emitArg]
    simp only [Bool.and_false, Bool.false_eq_true, if_false, appendT_nil]
    exact emitList_id false cs (fun x _ buf => emit_ctx_false x buf) buf
  · exact emit_ctx_false a buf

/-- C9: generation is a total deterministic function of the current session
state alone: the change() regeneration overwrites the text edit, so its
result does not depend on the previous text edit content, i.e. on the edit
history that produced it; identical session states give identical text. -/
theorem c9_generation_deterministic :
    ∀ (old1 old2 : Str) (it : Item), dialogChange old1 it = dialogChange old2 it := by
  intro old1 old2 it
  cases it <;> rfl

/-- Filtering the range below n for one index j below n keeps exactly one
element. -/
theorem range_filter_eq_one (n j : Nat) (h : j < n) :
    ((List.range n).filter (fun i => i == j)).length = 1 := by
  induction n with
  | zero => omega
  | succ m ih =>
    rw [List.range_succ, List.filter_append, List.length_append]
    by_cases hj : j = m
    · subst hj
      have h1 : (List.range j).filter (fun i => i == j) = [] := by
        rw [List.filter_eq_nil_iff]
        intro a ha
        have := List.mem_range.mp ha
        simp only [beq_iff_eq]
        omega
      simp [h1, List.filter]
    · have hne : (m == j) = false := by
        simp only [beq_eq_false_iff_ne, ne_eq]
        omega
      have h2 : [m].filter (fun i => i == j) = [] := by simp [List.filter, hne]
      rw [h2, ih (by omega)]
      rfl

/-- Initialisation preserves the number of children. -/
theorem argInitList_length (cs : List GArg) : (argInitList cs).length = cs.length := by
  induction cs with
  | nil => rfl
  | cons g rest ih => rw [argInitList, List.length_cons, List.length_cons, ih]

/-- C6: in a freshly created session every Or container has radio index 0
checked, hence exactly one active child (the first), and checking any
existing radio button keeps exactly one child active. -/
theorem c6_exclusive_group_invariant :
    ∀ (nl nl2 : Bool) (gcs : List GArg) (cs : List Arg) (sel j : Nat),
      0 < gcs.length → j < cs.length →
      orSelected (argInit (.gor nl gcs)) = some 0 ∧
      orActiveCount (argInit (.gor nl gcs)) = 1 ∧
      orActiveCount (orToggle j (.orGroup nl2 sel cs)) = 1 := by
  intro nl nl2 gcs cs sel j h0 hj
  refine ⟨rfl, ?_, ?_⟩
  · show orActiveCount (.orGroup nl 0 (argInitList gcs)) = 1
    rw [orActiveCount, argInitList_length]
    exact range_filter_eq_one _ 0 h0
  · rw [orToggle, if_pos hj, orActiveCount]
    exact range_filter_eq_one _ j hj

/-- Fresh group flags of an initialised sibling list, pointwise. -/
theorem groupsUncheckedList_init (cs : List GArg)
    (h : ∀ g ∈ cs, groupsUnchecked (argInit g) = true) :
    groupsUncheckedList (argInitList cs) = true := by
  induction cs with
  | nil => rfl
  | cons g rest ih =>
    rw [argInitList, groupsUncheckedList, h g (by simp),
      ih (fun x hx => h x (by simp [hx])), Bool.and_self]

/-- Fresh radio indices of an initialised sibling list, pointwise. -/
theorem orsAtZeroList_init (cs : List GArg)
    (h : ∀ g ∈ cs, orsAtZero (argInit g) = true) :
    orsAtZeroList (argInitList cs) = true := by
  induction cs with
  | nil => rfl
  | cons g rest ih =>
    rw [argInitList, orsAtZeroList, h g (by simp),
      ih (fun x hx => h x (by simp [hx])), Bool.and_self]

/-- A grammar used as a counterexample: a sequential group that contains a
required leaf. -/
def c8Grammar : GArg := .ggroup (str "G") [.gleaf (str "NAME") [] true false]

/-- C8, counterexample: the claim says a freshly created session enables
every sequential group that contains a required leaf; in the code
Group.__init__ calls setChecked(False) unconditionally, so this group, which
does contain a required leaf, starts disabled. -/
theorem c8_counterexample :
    hasRequiredLeafG c8Grammar = true ∧
    topGroupChecked (argInit c8Grammar) = some false := by
  decide

/-- C8, amended: a freshly created session has every sequential group
disabled, without exception for groups containing required leaves, and every
exclusive group at selection index 0 (a required Bool checkbox does start
checked, but no enabling is propagated to ancestor groups). -/
theorem c8_fresh_session_defaults :
    ∀ g : GArg, groupsUnchecked (argInit g) = true ∧ orsAtZero (argInit g) = true := by
  intro g
  induction g using gargStrongInd with
  | hleaf n v r nl => exact ⟨rfl, rfl⟩
  | hbool n r => exact ⟨rfl, rfl⟩
  | hgroup n cs ih =>
    constructor
    · rw [argInit, groupsUnchecked, groupsUncheckedList_init cs (fun x hx => (ih x hx).1)]
      rfl
    · rw [argInit, orsAtZero]
      exact orsAtZeroList_init cs (fun x hx => (ih x hx).2)
  | hbox nl cs ih =>
    constructor
    · rw [argInit, groupsUnchecked]
      exact groupsUncheckedList_init cs (fun x hx => (ih x hx).1)
    · rw [argInit, orsAtZero]
      exact orsAtZeroList_init cs (fun x hx => (ih x hx).2)
  | hor nl cs ih =>
    constructor
    · rw [argInit, groupsUnchecked]
      exact groupsUncheckedList_init cs (fun x hx => (ih x hx).1)
    · rw [argInit, orsAtZero, orsAtZeroList_init cs (fun x hx => (ih x hx).2)]
      rfl

/-- C6 witness: a concrete two-alternative exclusive group, freshly created
and then toggled to its second child. -/
theorem c6_exclusive_group_invariant_witness :
    0 < ([GArg.gleaf (str "A") [] false false, GArg.gleaf (str "B") [] false false] :
        List GArg).length ∧
    1 < (argInitList [GArg.gleaf (str "A") [] false false,
        GArg.gleaf (str "B") [] false false]).length ∧
    orSelected (argInit (.gor false [GArg.gleaf (str "A") [] false false,
        GArg.gleaf (str "B") [] false false])) = some 0 ∧
    orActiveCount (argInit (.gor false [GArg.gleaf (str "A") [] false false,
        GArg.gleaf (str "B") [] false false])) = 1 ∧
    orActiveCount (orToggle 1 (.orGroup false 0 (argInitList
        [GArg.gleaf (str "A") [] false false,
         GArg.gleaf (str "B") [] false false]))) = 1 := by
  refine ⟨by decide, by decide, ?_⟩
  have h := c6_exclusive_group_invariant false false
    [GArg.gleaf (str "A") [] false false, GArg.gleaf (str "B") [] false false]
    (argInitList [GArg.gleaf (str "A") [] false false,
      GArg.gleaf (str "B") [] false false])
    0 1 (by decide) (by decide)
  exact h

/-- A list is a prefix of itself followed by anything. -/
theorem isPrefixOf_append_self (p t : Str) : p.isPrefixOf (p ++ t) = true := by
  induction p with
  | nil => simp [List.isPrefixOf]
  | cons c rest ih => simp [List.isPrefixOf, ih]

/-- The placeholder item built for a cross-reference whose keyword carries
the star sigil starts with the placeholder marker. -/
theorem placeholder_has_marker (rest : Str) :
    phP.isPrefixOf (placeholderItem ('*' :: rest)) = true := by
  have h : placeholderItem ('*' :: rest) = phP ++ (rest ++ str " first !!!") := by
    show str "!!! Create " ++ ('*' :: rest) ++ str " first !!!" = _
    rw [show ('*' :: rest : Str) = ['*'] ++ rest from rfl]
    rw [show phP = str "!!! Create " ++ ['*'] from by decide]
    simp
  rw [h]
  exact isPrefixOf_append_self _ _

/-- C7: for a leaf with a cross-reference to a keyword (with its star
sigil), the candidate values the combo box offers are exactly the names of
the implementations currently registered for that keyword, in registration
order; when none is registered the candidate list is empty and no failure
occurs, only the unselectable placeholder row is shown.  Implementation
names are assumed non-empty and free of the placeholder marker. -/
theorem c7_cross_reference_candidates :
    ∀ (index : List Impl) (rest : Str),
      (∀ im ∈ getImplementations index ('*' :: rest),
        im.iname.isEmpty = false ∧ phP.isPrefixOf im.iname = false) →
      comboCandidates (comboItems index (some ('*' :: rest)) []) =
        (getImplementations index ('*' :: rest)).map (fun im => im.iname) ∧
      (getImplementations index ('*' :: rest) = [] →
        comboCandidates (comboItems index (some ('*' :: rest)) []) = []) := by
  intro index rest h
  cases hG : getImplementations index ('*' :: rest) with
  | nil =>
    have hitems : comboItems index (some ('*' :: rest)) [] =
        [[], placeholderItem ('*' :: rest)] := by
      simp [comboItems, hG]
    have hcand : comboCandidates (comboItems index (some ('*' :: rest)) []) = [] := by
      rw [hitems, comboCandidates]
      simp [List.filter_cons, placeholder_has_marker rest]
    exact ⟨by rw [hcand]; simp, fun _ => hcand⟩
  | cons im0 ims =>
    constructor
    · have hitems : comboItems index (some ('*' :: rest)) [] =
          [] :: (im0 :: ims).map (fun im => im.iname) := by
        simp [comboItems, hG]
      rw [hitems, comboCandidates, List.filter_cons]
      simp only [List.isEmpty_nil, Bool.not_true, Bool.false_and,
        Bool.false_eq_true, if_false]
      apply List.filter_eq_self.mpr
      intro s hs
      rw [List.mem_map] at hs
      obtain ⟨im, him, hsim⟩ := hs
      have hgood := h im (by rw [hG]; exact him)
      subst hsim
      simp [hgood.1, hgood.2]
    · intro hc
      exact absurd hc (List.cons_ne_nil im0 ims)

/-- The implementation index of the cross-reference example: two SURFACE
usages named S1 and S2, registered in that order. -/
def surfaceIndex : List Impl :=
  [⟨str "*SURFACE", str "S1"⟩, ⟨str "*SURFACE", str "S2"⟩]

/-- C7 witness: with S1 and S2 registered for SURFACE the combo offers
exactly those two candidates in registration order, and with an empty index
it offers no candidate. -/
theorem c7_cross_reference_candidates_witness :
    comboCandidates (comboItems surfaceIndex (some ('*' :: str "SURFACE")) []) =
      [str "S1", str "S2"] ∧
    comboCandidates (comboItems [] (some ('*' :: str "SURFACE")) []) = [] := by
  have h := c7_cross_reference_candidates surfaceIndex (str "SURFACE") (by decide)
  have h2 := c7_cross_reference_candidates [] (str "SURFACE") (by decide)
  refine ⟨?_, h2.2 rfl⟩
  rw [h.1]
  decide

/-- The sibling walk of accept agrees with collecting the required texts,
pointwise hypothesis version. -/
theorem acceptList_eq_req (cs : List Arg)
    (h : ∀ a ∈ cs, ∀ ctx, acceptArg ctx a = (reqTextsArg ctx a).all (fun s => !s.isEmpty)) :
    ∀ ctx, acceptList ctx cs = (reqTextsList ctx cs).all (fun s => !s.isEmpty) := by
  induction cs with
  | nil => intro ctx; rfl
  | cons a rest ih =>
    intro ctx
    rw [acceptList, reqTextsList, List.all_append, h a (by simp),
      ih (fun x hx => h x (by simp [hx]))]

/-- The Or walk of accept agrees with collecting the required texts,
pointwise hypothesis version. -/
theorem acceptOr_eq_req (cs : List Arg)
    (h : ∀ a ∈ cs, ∀ ctx, acceptArg ctx a = (reqTextsArg ctx a).all (fun s => !s.isEmpty)) :
    ∀ ctx sel i, acceptOr ctx sel i cs = (reqTextsOr ctx sel i cs).all (fun s => !s.isEmpty) := by
  induction cs with
  | nil => intro ctx sel i; rfl
  | cons a rest ih =>
    intro ctx sel i
    rw [acceptOr, reqTextsOr, List.all_append, h a (by simp),
      ih (fun x hx => h x (by simp [hx]))]

/-- accept agrees with collecting the required texts, single node. -/
theorem acceptArg_eq_req :
    ∀ a : Arg, ∀ ctx, acceptArg ctx a = (reqTextsArg ctx a).all (fun s => !s.isEmpty) := by
  intro a
  induction a using argStrongInd with
  | hleaf n v r nl e =>
    intro ctx
    cases r <;> simp [acceptArg, reqTextsArg]
  | hbool n r c e =>
    intro ctx
    cases r <;> simp [acceptArg, reqTextsArg]
  | hgroup n c cs ih =>
    intro ctx
    rw [acceptArg, reqTextsArg]
    exact acceptList_eq_req cs ih (ctx && c)
  | hbox nl cs ih =>
    intro ctx
    rw [acceptArg, reqTextsArg]
    exact acceptList_eq_req cs ih ctx
  | hor nl s cs ih =>
    intro ctx
    rw [acceptArg, reqTextsArg]
    exact acceptOr_eq_req cs ih ctx s 0

/-- A session used as a counterexample for the validation claim: an
unchecked (disabled) sequential group containing a required leaf with an
empty value.  There is no visible required leaf with an empty value, yet
accept refuses the session, because the walk also checks hidden leaves and
a hidden leaf always has an empty text. -/
def c5Session : List Arg := [.group (str "G") false [.leaf (str "A") [] true false true]]

/-- C5, counterexample: the claim says a session with zero unfilled visible
required leaves validates successfully even when hidden branches are
incomplete; on this session the spec-side predicate (errors only for
visible required leaves) holds, but the accept walk of the code returns
false. -/
theorem c5_counterexample :
    specVisibleOkList true c5Session = true ∧ acceptList true c5Session = false := by
  decide

/-- C5, amended: accept checks every required argument widget, visible or
not, through its effective text: it succeeds exactly when every required
leaf or checkbox in the whole tree yields a non-empty text under its
context, and a required leaf below a disabled ancestor always yields the
empty text, hence always blocks acceptance, whatever its value. -/
theorem c5_accept_checks_hidden_required :
    ∀ (ctx : Bool) (args : List Arg) (n v : Str) (nl e : Bool),
      acceptList ctx args = (reqTextsList ctx args).all (fun s => !s.isEmpty) ∧
      acceptArg false (.leaf n v true nl e) = false := by
  intro ctx args n v nl e
  exact ⟨acceptList_eq_req args (fun a _ => acceptArg_eq_req a) ctx, rfl⟩

/-- A sibling walk with pointwise scrub-invariance is scrub-invariant. -/
theorem emitList_scrub (cs : List Arg)
    (h : ∀ a ∈ cs, ∀ ctx buf, emitArg ctx (scrubArg a) buf = emitArg ctx a buf) :
    ∀ ctx buf, emitList ctx (scrubList cs) buf = emitList ctx cs buf := by
  induction cs with
  | nil => intro ctx buf; rfl
  | cons a rest ih =>
    intro ctx buf
    rw [scrubList, emitList, emitList, h a (by simp)]
    exact ih (fun x hx => h x (by simp [hx])) ctx _

/-- An Or walk with pointwise scrub-invariance is scrub-invariant. -/
theorem emitOr_scrub (cs : List Arg)
    (h : ∀ a ∈ cs, ∀ ctx buf, emitArg ctx (scrubArg a) buf = emitArg ctx a buf) :
    ∀ ctx sel i buf, emitOr ctx sel i (scrubList cs) buf = emitOr ctx sel i cs buf := by
  induction cs with
  | nil => intro ctx sel i buf; rfl
  | cons a rest ih =>
    intro ctx sel i buf
    rw [scrubList, emitOr, emitOr, h a (by simp)]
    exact ih (fun x hx => h x (by simp [hx])) ctx sel (i + 1) _

/-- Replacing every placeholder value by the empty value does not change the
generated text: a placeholder value is emitted exactly like an empty one,
namely not at all. -/
theorem emitArg_scrub :
    ∀ a : Arg, ∀ ctx buf, emitArg ctx (scrubArg a) buf = emitArg ctx a buf := by
  intro a
  induction a using argStrongInd with
  | hleaf n v r nl e =>
    intro ctx buf
    by_cases hp : phP.isPrefixOf v = true
    · simp [scrubArg, emitArg, wtext, leafText, hp]
    · simp [scrubArg, emitArg, hp]
  | hbool n r c e => intro ctx buf; rfl
  | hgroup n c cs ih =>
    intro ctx buf
    rw [scrubArg, emitArg, emitArg]
    exact emitList_scrub cs ih (ctx && c) _
  | hbox nl cs ih =>
    intro ctx buf
    rw [scrubArg, emitArg, emitArg]
    exact emitList_scrub cs ih ctx _
  | hor nl s cs ih =>
    intro ctx buf
    rw [scrubArg, emitArg, emitArg]
    exact emitOr_scrub cs ih ctx s 0 _

/-- A character of an appended buffer comes from the buffer or the piece. -/
theorem mem_appendT {c : Char} {buf t : Str} (h : c ∈ appendT buf t) : c ∈ buf ∨ c ∈ t := by
  rw [appendT] at h
  rcases List.mem_append.mp h with h1 | h2
  · exact Or.inl h1
  · right
    split at h2
    · exact List.drop_subset 2 t h2
    · exact h2

/-- The text of a leaf is free of the exclamation mark when its name is and
its value is either a placeholder or free of it. -/
theorem bang_not_mem_leafText (n v : Str) (nl : Bool)
    (hn : ('!' : Char) ∉ n)
    (hv : phP.isPrefixOf v = true ∨ ('!' : Char) ∉ v) :
    ('!' : Char) ∉ leafText n v nl := by
  intro hmem
  rw [leafText] at hmem
  split at hmem
  · simp at hmem
  · rename_i hguard
    have hpf : phP.isPrefixOf v = false := by
      have h0 : (v.isEmpty || phP.isPrefixOf v) = false := Bool.eq_false_iff.mpr hguard
      exact (Bool.or_eq_false_iff.mp h0).2
    have hvn : ('!' : Char) ∉ v := by
      rcases hv with h | h
      · rw [hpf] at h; cases h
      · exact h
    rcases List.mem_append.mp hmem with h1 | h2
    · cases nl <;> simp [sepOf] at h1
    · split at h2
      · exact hvn h2
      · rcases List.mem_append.mp h2 with h3 | h4
        · exact hn h3
        · rcases List.mem_cons.mp h4 with h5 | h6
          · cases h5
          · exact hvn h6

/-- A sibling walk preserves freedom from the exclamation mark, pointwise
hypothesis version. -/
theorem emitList_bang (cs : List Arg)
    (h : ∀ a ∈ cs, bangFreeArg a = true →
      ∀ ctx buf, ('!' : Char) ∉ buf → ('!' : Char) ∉ emitArg ctx a buf)
    (hcs : bangFreeList cs = true) :
    ∀ ctx buf, ('!' : Char) ∉ buf → ('!' : Char) ∉ emitList ctx cs buf := by
  induction cs with
  | nil => intro ctx buf hb; exact hb
  | cons a rest ih =>
    intro ctx buf hb
    rw [bangFreeList, Bool.and_eq_true] at hcs
    rw [emitList]
    exact ih (fun x hx => h x (by simp [hx])) hcs.2 ctx _ (h a (by simp) hcs.1 ctx buf hb)

/-- An Or walk preserves freedom from the exclamation mark, pointwise
hypothesis version. -/
theorem emitOr_bang (cs : List Arg)
    (h : ∀ a ∈ cs, bangFreeArg a = true →
      ∀ ctx buf, ('!' : Char) ∉ buf → ('!' : Char) ∉ emitArg ctx a buf)
    (hcs : bangFreeList cs = true) :
    ∀ ctx sel i buf, ('!' : Char) ∉ buf → ('!' : Char) ∉ emitOr ctx sel i cs buf := by
  induction cs with
  | nil => intro ctx sel i buf hb; exact hb
  | cons a rest ih =>
    intro ctx sel i buf hb
    rw [bangFreeList, Bool.and_eq_true] at hcs
    rw [emitOr]
    exact ih (fun x hx => h x (by simp [hx])) hcs.2 ctx sel (i + 1) _
      (h a (by simp) hcs.1 _ buf hb)

/-- Emission preserves freedom from the exclamation mark on bang-free
sessions. -/
theorem emitArg_bang :
    ∀ a : Arg, bangFreeArg a = true →
      ∀ ctx buf, ('!' : Char) ∉ buf → ('!' : Char) ∉ emitArg ctx a buf := by
  intro a
  induction a using argStrongInd with
  | hleaf n v r nl e =>
    intro hfree ctx buf hb hmem
    rw [bangFreeArg, Bool.and_eq_true] at hfree
    have hn : ('!' : Char) ∉ n := by simpa using hfree.1
    have hv : phP.isPrefixOf v = true ∨ ('!' : Char) ∉ v := by
      have h2 := hfree.2
      simp only [Bool.or_eq_true] at h2
      rcases h2 with h1 | h1
      · exact Or.inl h1
      · exact Or.inr (by simpa using h1)
    rcases mem_appendT hmem with h1 | h2
    · exact hb h1
    · rw [wtext] at h2
      split at h2
      · exact bang_not_mem_leafText n v nl hn hv h2
      · cases h2
  | hbool n r c e =>
    intro hfree ctx buf hb hmem
    have hn : ('!' : Char) ∉ n := by
      simpa [bangFreeArg] using hfree
    rcases mem_appendT hmem with h1 | h2
    · exact hb h1
    · rw [wtext] at h2
      split at h2
      · rcases List.mem_cons.mp h2 with h3 | h4
        · cases h3
        · rcases List.mem_cons.mp h4 with h5 | h6
          · cases h5
          · exact hn h6
      · cases h2
  | hgroup n c cs ih =>
    intro hfree ctx buf hb hmem
    rw [bangFreeArg, Bool.and_eq_true] at hfree
    have hn : ('!' : Char) ∉ n := by simpa using hfree.1
    rw [emitArg] at hmem
    refine emitList_bang cs ih hfree.2 (ctx && c) _ ?_ hmem
    intro hmem2
    rcases mem_appendT hmem2 with h1 | h2
    · exact hb h1
    · split at h2
      · rcases List.mem_cons.mp h2 with h3 | h4
        · cases h3
        · rcases List.mem_cons.mp h4 with h5 | h6
          · cases h5
          · exact hn h6
      · cases h2
  | hbox nl cs ih =>
    intro hfree ctx buf hb hmem
    rw [emitArg] at hmem
    refine emitList_bang cs ih hfree ctx _ ?_ hmem
    intro hmem2
    rcases mem_appendT hmem2 with h1 | h2
    · exact hb h1
    · split at h2
      · cases nl <;> simp [boxSep] at h2
      · cases h2
  | hor nl s cs ih =>
    intro hfree ctx buf hb hmem
    rw [emitArg] at hmem
    refine emitOr_bang cs ih hfree ctx s 0 _ ?_ hmem
    intro hmem2
    rcases mem_appendT hmem2 with h1 | h2
    · exact hb h1
    · split at h2
      · cases nl <;> simp [boxSep] at h2
      · cases h2

/-- C10: the placeholder a cross-reference combo inserts when its target
keyword has no registered implementation is never emitted into the
generated text.  First part: replacing every value that carries the
placeholder marker by the empty value leaves the generated text unchanged,
so a placeholder value contributes exactly nothing.  Second part: on
sessions where the exclamation mark occurs only inside placeholder values
(and the keyword name is free of it), the generated text never contains the
placeholder marker, hence no generated line contains the placeholder. -/
theorem c10_placeholder_never_emitted :
    ∀ (old kw : Str) (args : List Arg),
      dialogChange old (.keyword kw (scrubList args)) = dialogChange old (.keyword kw args) ∧
      (kw.contains '!' = false → bangFreeList args = true →
        ∀ p q : Str, dialogChange old (.keyword kw args) ≠ p ++ phP ++ q) := by
  intro old kw args
  constructor
  · exact emitList_scrub args (fun a _ => emitArg_scrub a) true kw
  · intro hkw hargs p q heq
    have hout : ('!' : Char) ∉ emitList true args kw :=
      emitList_bang args (fun a _ => emitArg_bang a) hargs true kw (by simpa using hkw)
    rw [show dialogChange old (.keyword kw args) = emitList true args kw from rfl] at heq
    rw [heq] at hout
    apply hout
    refine List.mem_append.mpr (Or.inl (List.mem_append.mpr (Or.inr ?_)))
    decide

/-- C10 witness: on the concrete CONSTRAINT example session scrubbing
changes nothing and the generated text does not consist of the placeholder
marker alone. -/
theorem c10_placeholder_never_emitted_witness :
    (str "*CONSTRAINT").contains '!' = false ∧
    bangFreeList constraintArgs = true ∧
    dialogChange [] (.keyword (str "*CONSTRAINT") (scrubList constraintArgs)) =
      dialogChange [] (.keyword (str "*CONSTRAINT") constraintArgs) ∧
    dialogChange [] (.keyword (str "*CONSTRAINT") constraintArgs) ≠ [] ++ phP ++ [] := by
  refine ⟨by decide, by decide, ?_, ?_⟩
  · exact (c10_placeholder_never_emitted [] (str "*CONSTRAINT") constraintArgs).1
  · exact (c10_placeholder_never_emitted [] (str "*CONSTRAINT") constraintArgs).2
      (by decide) (by decide) [] []

/-- A line break moves the scanner to the line start state whatever the
current state. -/
theorem scanStep_newline : ∀ s : ScanSt, scanStep s '\n' = some .atStart := by
  intro s
  cases s <;> simp [scanStep]

/-- The scanner distributes over concatenation. -/
theorem scanRun_append (a : Str) :
    ∀ (s : ScanSt) (b : Str),
      scanRun s (a ++ b) = (scanRun s a).bind (fun s2 => scanRun s2 b) := by
  induction a with
  | nil => intro s b; rfl
  | cons c rest ih =>
    intro s b
    rw [List.cons_append, scanRun, scanRun]
    cases hstep : scanStep s c with
    | none => rfl
    | some s2 => exact ih s2 b

/-- Away from the line start the scanner accepts any text without line
breaks and stays away from the line start. -/
theorem scanRun_inLine (s : Str) (h : ('\n' : Char) ∉ s) :
    scanRun .inLine s = some .inLine := by
  induction s with
  | nil => rfl
  | cons c rest ih =>
    have hc : c ≠ '\n' := fun he => h (he ▸ List.mem_cons_self c rest)
    rw [scanRun, scanStep, if_neg hc]
    exact ih (fun hm => h (List.mem_cons_of_mem c hm))

/-- From the line start the scanner accepts any text without line breaks
that does not start with the comma-space separator. -/
theorem scanRun_start_ok (s : Str) (hnl : ('\n' : Char) ∉ s) (hs : sws s = false) :
    (scanRun .atStart s).isSome = true := by
  cases s with
  | nil => rfl
  | cons c r =>
    have hc : c ≠ '\n' := fun he => hnl (he ▸ List.mem_cons_self c r)
    have hr : ('\n' : Char) ∉ r := fun hm => hnl (List.mem_cons_of_mem c hm)
    by_cases hcc : c = ','
    · subst hcc
      cases r with
      | nil => rfl
      | cons d r2 =>
        have hd : d ≠ ' ' := by
          intro hde
          subst hde
          simp [sws] at hs
        have hd2 : d ≠ '\n' := fun he => hr (he ▸ List.mem_cons_self d r2)
        have hr2 : ('\n' : Char) ∉ r2 := fun hm => hr (List.mem_cons_of_mem d hm)
        rw [scanRun, show scanStep .atStart ',' = some .atComma from rfl]
        show (scanRun .atComma (d :: r2)).isSome = true
        rw [scanRun, show scanStep .atComma d = some .inLine from by
          rw [scanStep, if_neg hd, if_neg hd2]]
        show (scanRun .inLine r2).isSome = true
        rw [scanRun_inLine r2 hr2]
        rfl
    · rw [scanRun, show scanStep .atStart c = some .inLine from by
        rw [scanStep, if_neg hcc, if_neg hc]]
      show (scanRun .inLine r).isSome = true
      rw [scanRun_inLine r hr]
      rfl

/-- After one accepted step the scanner is at the line start exactly when
the consumed character was a line break. -/
theorem scanStep_atStart_iff (s : ScanSt) (c : Char) (s2 : ScanSt)
    (h : scanStep s c = some s2) : s2 = .atStart ↔ c = '\n' := by
  cases s <;> rw [scanStep] at h
  · by_cases h1 : c = ','
    · rw [if_pos h1] at h
      cases h
      constructor
      · intro hx; cases hx
      · intro hx; rw [h1] at hx; cases hx
    · rw [if_neg h1] at h
      by_cases h2 : c = '\n'
      · rw [if_pos h2] at h; cases h; simp [h2]
      · rw [if_neg h2] at h; cases h
        constructor
        · intro hx; cases hx
        · intro hx; exact absurd hx h2
  · by_cases h1 : c = ' '
    · rw [if_pos h1] at h; cases h
    · rw [if_neg h1] at h
      by_cases h2 : c = '\n'
      · rw [if_pos h2] at h; cases h; simp [h2]
      · rw [if_neg h2] at h; cases h
        constructor
        · intro hx; cases hx
        · intro hx; exact absurd hx h2
  · by_cases h2 : c = '\n'
    · rw [if_pos h2] at h; cases h; simp [h2]
    · rw [if_neg h2] at h; cases h
      constructor
      · intro hx; cases hx
      · intro hx; exact absurd hx h2

/-- An accepted scan ends at the line start exactly when the text ends with
a line break. -/
theorem scanRun_last :
    ∀ (buf : Str), buf ≠ [] → ∀ (s0 st : ScanSt), scanRun s0 buf = some st →
      (st = .atStart ↔ buf.getLast? = some '\n') := by
  intro buf
  induction buf with
  | nil => intro h; exact absurd rfl h
  | cons c rest ih =>
    intro _ s0 st h
    rw [scanRun] at h
    cases hstep : scanStep s0 c with
    | none => rw [hstep] at h; cases h
    | some s1 =>
      rw [hstep] at h
      cases rest with
      | nil =>
        cases h
        rw [List.getLast?_singleton]
        constructor
        · intro hx
          rw [(scanStep_atStart_iff s0 c st hstep).mp hx]
        · intro hx
          exact (scanStep_atStart_iff s0 c st hstep).mpr (by cases hx; rfl)
      | cons d rest2 =>
        rw [List.getLast?_cons_cons]
        exact ih (by simp) s1 st h

/-- The shape of every piece change() can append: nothing, or a comma-space
or line-break separator followed by a remainder that contains no line break
and does not itself start with the comma-space separator. -/
def GoodPiece (t : Str) : Prop :=
  t = [] ∨ ∃ s : Str, ('\n' : Char) ∉ s ∧ sws s = false ∧
    (t = ',' :: ' ' :: s ∨ t = '\n' :: s)

/-- Appending a good piece preserves acceptance by the line scanner: the cut
of a leading comma-space after a line break (dialog.py line 411) is exactly
what keeps every line from starting with the separator. -/
theorem appendT_scan (buf t : Str) (hb : buf ≠ [])
    (hs : (scanRun .atStart buf).isSome = true) (ht : GoodPiece t) :
    appendT buf t ≠ [] ∧ (scanRun .atStart (appendT buf t)).isSome = true := by
  obtain ⟨st, hsome⟩ := Option.isSome_iff_exists.mp hs
  have hne : ∀ u : Str, buf ++ u ≠ [] := by
    intro u he
    rcases List.append_eq_nil.mp he with ⟨h1, _⟩
    exact hb h1
  have hbind : ∀ u : Str, (scanRun st u).isSome = true →
      (scanRun .atStart (buf ++ u)).isSome = true := by
    intro u hu
    rw [scanRun_append buf .atStart u, hsome]
    exact hu
  rcases ht with hnil | ⟨s, hsnl, hsws, hshape⟩
  · subst hnil
    rw [appendT_nil]
    exact ⟨hb, hs⟩
  · rcases hshape with hcs | hnl
    · subst hcs
      by_cases hend : endsNL buf = true
      · have hst : st = .atStart := by
          refine (scanRun_last buf hb .atStart st hsome).mpr ?_
          rw [endsNL] at hend
          exact eq_of_beq hend
        rw [appendT, hend, show sws (',' :: ' ' :: s) = true from by simp [sws],
          Bool.true_and, if_pos rfl]
        refine ⟨hne _, hbind _ ?_⟩
        rw [hst, show (',' :: ' ' :: s).drop 2 = s from rfl]
        exact scanRun_start_ok s hsnl hsws
      · have hstne : st ≠ .atStart := by
          intro hst
          apply hend
          rw [endsNL, ((scanRun_last buf hb .atStart st hsome).mp hst)]
          rfl
        rw [appendT, Bool.eq_false_iff.mpr hend, Bool.false_and, if_neg (by simp)]
        refine ⟨hne _, hbind _ ?_⟩
        cases st with
        | atStart => exact absurd rfl hstne
        | atComma =>
          rw [scanRun, show scanStep .atComma ',' = some .inLine from rfl]
          show (scanRun .inLine (' ' :: s)).isSome = true
          rw [scanRun, show scanStep .inLine ' ' = some .inLine from rfl]
          show (scanRun .inLine s).isSome = true
          rw [scanRun_inLine s hsnl]
          rfl
        | inLine =>
          rw [scanRun, show scanStep .inLine ',' = some .inLine from rfl]
          show (scanRun .inLine (' ' :: s)).isSome = true
          rw [scanRun, show scanStep .inLine ' ' = some .inLine from rfl]
          show (scanRun .inLine s).isSome = true
          rw [scanRun_inLine s hsnl]
          rfl
    · subst hnl
      have hsws2 : sws ('\n' :: s) = false := by
        cases s with
        | nil => rfl
        | cons d r => simp [sws]
      rw [appendT, hsws2, Bool.and_false, if_neg (by simp)]
      refine ⟨hne _, hbind _ ?_⟩
      rw [scanRun, scanStep_newline st]
      show (scanRun .atStart s).isSome = true
      exact scanRun_start_ok s hsnl hsws

/-- A text whose first character is not a comma does not start with the
comma-space separator. -/
theorem sws_false_of_head (l : Str) (h : l.head? ≠ some ',') : sws l = false := by
  cases l with
  | nil => rfl
  | cons c r =>
    cases r with
    | nil => rfl
    | cons d r2 =>
      have hc : (c == ',') = false := beq_eq_false_iff_ne.mpr (by
        intro he
        exact h (by rw [he]; rfl))
      simp [sws, hc]

/-- The separator-and-group-name piece of Group.text and Bool.text is a good
piece when the name is free of line breaks and does not start with a
comma. -/
theorem goodPiece_commaName (n : Str) (hnN : ('\n' : Char) ∉ n)
    (hhead : n.head? ≠ some ',') : GoodPiece (',' :: ' ' :: n) :=
  Or.inr ⟨n, hnN, sws_false_of_head n hhead, Or.inl rfl⟩

/-- The piece of GroupWidget.text is a good piece. -/
theorem goodPiece_boxSep (nl : Bool) : GoodPiece (boxSep nl) := by
  cases nl with
  | false => exact Or.inl rfl
  | true => exact Or.inr ⟨[], by simp, rfl, Or.inr rfl⟩

/-- A good piece stays good under the enabled gate. -/
theorem goodPiece_ite (c : Prop) [Decidable c] (t : Str) (h : GoodPiece t) :
    GoodPiece (if c then t else []) := by
  by_cases hc : c
  · rw [if_pos hc]; exact h
  · rw [if_neg hc]; exact Or.inl rfl

/-- The text of a leaf widget is a good piece on separator-clean
sessions. -/
theorem goodPiece_leaf (ctx : Bool) (n v : Str) (r nl e : Bool)
    (hok : sepOkArg (.leaf n v r nl e) = true) :
    GoodPiece (wtext ctx (.leaf n v r nl e)) := by
  simp only [sepOkArg] at hok
  simp at hok
  obtain ⟨⟨⟨hnN, hnV⟩, hhead⟩, h4⟩ := hok
  rw [wtext]
  refine goodPiece_ite _ _ ?_
  rw [leafText]
  by_cases hguard : (v.isEmpty || phP.isPrefixOf v) = true
  · rw [if_pos hguard]; exact Or.inl rfl
  · rw [if_neg hguard]
    have hbodynl : ('\n' : Char) ∉ (if n.isEmpty then v else n ++ '=' :: v) := by
      by_cases hni : n.isEmpty = true
      · rw [if_pos hni]; exact hnV
      · rw [if_neg (by simp [hni])]
        intro hm
        rcases List.mem_append.mp hm with hma | hmb
        · exact hnN hma
        · rcases List.mem_cons.mp hmb with hmc | hmd
          · cases hmc
          · exact hnV hmd
    have hbodysws : sws (if n.isEmpty then v else n ++ '=' :: v) = false := by
      by_cases hni : n.isEmpty = true
      · rw [if_pos hni]
        have hn0 : n = [] := by simpa using hni
        rcases h4 with h4a | h4b
        · exact absurd hn0 h4a
        · exact h4b
      · rw [if_neg (by simp [hni])]
        have hne2 : n ≠ [] := by simpa using hni
        obtain ⟨c, n2, rfl⟩ := List.exists_cons_of_ne_nil hne2
        have hc : (c == ',') = false := beq_eq_false_iff_ne.mpr (by
          intro he
          exact hhead (by rw [he]; rfl))
        clear h4 hnN hnV hhead hguard hni hne2
        cases n2 with
        | nil =>
          show sws (c :: '=' :: v) = false
          simp [sws, hc]
        | cons d n3 =>
          show sws (c :: d :: (n3 ++ '=' :: v)) = false
          simp [sws, hc]
    refine Or.inr ⟨if n.isEmpty then v else n ++ '=' :: v, hbodynl, hbodysws, ?_⟩
    cases nl with
    | false => exact Or.inl (by rw [sepOf]; rfl)
    | true => exact Or.inr (by rw [sepOf]; rfl)

/-- A sibling walk preserves scanner acceptance, pointwise hypothesis
version. -/
theorem emitList_scan (cs : List Arg)
    (h : ∀ a ∈ cs, sepOkArg a = true → ∀ ctx buf, buf ≠ [] →
      (scanRun .atStart buf).isSome = true →
      (emitArg ctx a buf ≠ [] ∧ (scanRun .atStart (emitArg ctx a buf)).isSome = true))
    (hcs : sepOkList cs = true) :
    ∀ ctx buf, buf ≠ [] → (scanRun .atStart buf).isSome = true →
      (emitList ctx cs buf ≠ [] ∧ (scanRun .atStart (emitList ctx cs buf)).isSome = true) := by
  induction cs with
  | nil => intro ctx buf hb hs; exact ⟨hb, hs⟩
  | cons a rest ih =>
    intro ctx buf hb hs
    rw [sepOkList, Bool.and_eq_true] at hcs
    rw [emitList]
    have hstep := h a (by simp) hcs.1 ctx buf hb hs
    exact ih (fun x hx => h x (by simp [hx])) hcs.2 ctx _ hstep.1 hstep.2

/-- An Or walk preserves scanner acceptance, pointwise hypothesis
version. -/
theorem emitOr_scan (cs : List Arg)
    (h : ∀ a ∈ cs, sepOkArg a = true → ∀ ctx buf, buf ≠ [] →
      (scanRun .atStart buf).isSome = true →
      (emitArg ctx a buf ≠ [] ∧ (scanRun .atStart (emitArg ctx a buf)).isSome = true))
    (hcs : sepOkList cs = true) :
    ∀ ctx sel i buf, buf ≠ [] → (scanRun .atStart buf).isSome = true →
      (emitOr ctx sel i cs buf ≠ [] ∧
        (scanRun .atStart (emitOr ctx sel i cs buf)).isSome = true) := by
  induction cs with
  | nil => intro ctx sel i buf hb hs; exact ⟨hb, hs⟩
  | cons a rest ih =>
    intro ctx sel i buf hb hs
    rw [sepOkList, Bool.and_eq_true] at hcs
    rw [emitOr]
    have hstep := h a (by simp) hcs.1 (ctx && (i == sel)) buf hb hs
    exact ih (fun x hx => h x (by simp [hx])) hcs.2 ctx sel (i + 1) _ hstep.1 hstep.2

/-- Emission preserves scanner acceptance on separator-clean sessions. -/
theorem emitArg_scan :
    ∀ a : Arg, sepOkArg a = true → ∀ ctx buf, buf ≠ [] →
      (scanRun .atStart buf).isSome = true →
      (emitArg ctx a buf ≠ [] ∧ (scanRun .atStart (emitArg ctx a buf)).isSome = true) := by
  intro a
  induction a using argStrongInd with
  | hleaf n v r nl e =>
    intro hok ctx buf hb hs
    exact appendT_scan buf _ hb hs (goodPiece_leaf ctx n v r nl e hok)
  | hbool n r c e =>
    intro hok ctx buf hb hs
    have hok2 := hok
    simp only [sepOkArg] at hok2
    simp at hok2
    refine appendT_scan buf _ hb hs ?_
    rw [wtext]
    exact goodPiece_ite _ _ (goodPiece_commaName n hok2.1 hok2.2)
  | hgroup n c cs ih =>
    intro hok ctx buf hb hs
    have hok2 := hok
    simp only [sepOkArg] at hok2
    simp at hok2
    obtain ⟨⟨hnN, hhead⟩, hcs⟩ := hok2
    rw [emitArg]
    have hfirst := appendT_scan buf (if ctx && c then ',' :: ' ' :: n else []) hb hs
      (goodPiece_ite _ _ (goodPiece_commaName n hnN hhead))
    have hcsb : sepOkList cs = true := by
      have := hok
      simp only [sepOkArg, Bool.and_eq_true] at this
      exact this.2
    exact emitList_scan cs ih hcsb (ctx && c) _ hfirst.1 hfirst.2
  | hbox nl cs ih =>
    intro hok ctx buf hb hs
    rw [emitArg]
    have hfirst := appendT_scan buf (if ctx then boxSep nl else []) hb hs
      (goodPiece_ite _ _ (goodPiece_boxSep nl))
    have hcsb : sepOkList cs = true := by
      simp only [sepOkArg] at hok
      exact hok
    exact emitList_scan cs ih hcsb ctx _ hfirst.1 hfirst.2
  | hor nl s cs ih =>
    intro hok ctx buf hb hs
    rw [emitArg]
    have hfirst := appendT_scan buf (if ctx then boxSep nl else []) hb hs
      (goodPiece_ite _ _ (goodPiece_boxSep nl))
    have hcsb : sepOkList cs = true := by
      simp only [sepOkArg] at hok
      exact hok
    exact emitOr_scan cs ih hcsb ctx s 0 _ hfirst.1 hfirst.2

/-- A text accepted by the scanner does not start with the comma-space
separator. -/
theorem sws_false_of_scanSome (l : Str) (h : (scanRun .atStart l).isSome = true) :
    sws l = false := by
  cases l with
  | nil => rfl
  | cons c r =>
    cases r with
    | nil => rfl
    | cons d r2 =>
      by_cases hc : c = ','
      · by_cases hd : d = ' '
        · subst hc
          subst hd
          rw [scanRun, show scanStep .atStart ',' = some .atComma from rfl] at h
          have h2 : (scanRun .atComma (' ' :: r2)).isSome = true := h
          rw [scanRun, show scanStep .atComma ' ' = none from rfl] at h2
          cases h2
        · simp [sws, hd]
      · simp [sws, hc]

/-- After an accepted scan, the text right after any line break is itself
accepted from the line start. -/
theorem scan_after_newline (p q : Str)
    (h : (scanRun .atStart (p ++ '\n' :: q)).isSome = true) :
    (scanRun .atStart q).isSome = true := by
  rw [scanRun_append p .atStart ('\n' :: q)] at h
  cases hp : scanRun .atStart p with
  | none => rw [hp] at h; cases h
  | some s1 =>
    rw [hp] at h
    have h2 : (scanRun s1 ('\n' :: q)).isSome = true := h
    rw [scanRun, scanStep_newline s1] at h2
    exact h2

/-- The session of the separator counterexample: a single nameless leaf
with newline=True whose current value starts with the comma-space
separator. -/
def c3Session : List Arg := [.leaf [] (str ", x") false true true]

/-- C3, counterexample: the claim quantifies over every session state, but a
value may itself carry a leading comma-space; after the line break of a
newline argument this value starts a line, and change() only cuts the
leading separator of the piece it appends, not one hidden inside the value:
the generated text is the keyword line followed by a line that starts with
the comma-space separator and nothing before it. -/
theorem c3_counterexample :
    dialogChange [] (.keyword (str "*K") c3Session) =
      str "*K" ++ '\n' :: str ", x" ∧
    sws (str ", x") = true := by
  constructor
  · decide
  · decide

/-- C3, amended: restricted to sessions whose names and values contain no
line break, whose names do not start with a comma, whose nameless leaf
values do not start with the comma-space separator, and with a non-empty
keyword name free of line breaks not starting with the separator, the
generated text never contains a comma-space separator with nothing before
it on a line: the full text does not start with it, and no text following a
line break starts with it — in particular the leading separator of the
first piece contributed after a line break is cut. -/
theorem c3_no_leading_separator :
    ∀ (old kw : Str) (args : List Arg),
      kwOk kw = true → sepOkList args = true →
      sws (dialogChange old (.keyword kw args)) = false ∧
      ∀ p q : Str, dialogChange old (.keyword kw args) = p ++ '\n' :: q →
        sws q = false := by
  intro old kw args hkw hargs
  have hkw2 := hkw
  simp only [kwOk] at hkw2
  simp at hkw2
  obtain ⟨⟨hkne, hknl⟩, hksws⟩ := hkw2
  have hinit : (scanRun .atStart kw).isSome = true :=
    scanRun_start_ok kw hknl (by simpa using hksws)
  have hmain := emitList_scan args (fun a _ => emitArg_scan a) hargs true kw hkne hinit
  constructor
  · exact sws_false_of_scanSome _ hmain.2
  · intro p q heq
    have := hmain.2
    rw [show dialogChange old (.keyword kw args) = emitList true args kw from rfl] at heq
    rw [heq] at this
    exact sws_false_of_scanSome q (scan_after_newline p q this)

/-- C3 witness: the amended statement applied to the CONSTRAINT example
session, whose single-line output does not start with the separator. -/
theorem c3_no_leading_separator_witness :
    kwOk (str "*CONSTRAINT") = true ∧
    sepOkList constraintArgs = true ∧
    sws (dialogChange [] (.keyword (str "*CONSTRAINT") constraintArgs)) = false := by
  refine ⟨by decide, by decide, ?_⟩
  exact (c3_no_leading_separator [] (str "*CONSTRAINT") constraintArgs
    (by decide) (by decide)).1
